import Mathlib

/-!
Verification of the aggregation/statistics engine of the chatgpt-wrapped
repository: the weighted-quantile estimator (`calculateQuantiles` /
`findQuantile` in `src/utils/calculations.ts`), the entity canonicalizer and
top-K ranker (`normalizeAndSlice` in `src/components/sections.ts`), and the
treemap layout engine (`squarify`, `layoutSubdomains`, `generateTreemap` in
`src/components/treemap.ts`).

JavaScript numbers are modelled as exact rationals (`ℚ`).  The single place
where the source can produce `NaN` on well-formed numeric input is the
division `(targetCount - prevCumulative) / bin.count` in `findQuantile` when
the selected bin has `count = 0` (JS `0/0 = NaN`); that outcome is modelled
as `none` of an `Option ℚ`.  All other divisions in the verified paths are
guarded by positivity hypotheses matching the data-model invariants.
-/

/-- A histogram bin, the source `Distribution` record consumed by
`calculateQuantiles`: fields `bin_start`, `bin_end`, `count`, `percentage`
(the estimator reads only the first three). -/
structure Distribution where
  bin_start : ℚ
  bin_end : ℚ
  count : ℚ
  percentage : ℚ
deriving DecidableEq

/-- Total count of a bin sequence, as accumulated by the first loop of
`calculateQuantiles` (`totalCount += bin.count`). -/
def totalCount (dist : List Distribution) : ℚ :=
  (dist.map fun b => b.count).sum

/-- Count-weighted sum of bin midpoints, as accumulated by the first loop of
`calculateQuantiles` (`weightedSum += binMidpoint * bin.count`). -/
def weightedSum (dist : List Distribution) : ℚ :=
  (dist.map fun b => ((b.bin_start + b.bin_end) / 2) * b.count).sum

/-- Sum of the counts of the first `n` bins; used to state what the
`findQuantile` loop computes in its `cumulativeCount` variable. -/
def cumCount (dist : List Distribution) (n : ℕ) : ℚ :=
  ((dist.take n).map fun b => b.count).sum

/-- The `for` loop of `findQuantile`: walk the bins accumulating
`cumulativeCount`; on the first bin where `cumulativeCount >= targetCount`
return the linear interpolation inside that bin, otherwise fall through to
`lastEnd` (the source expression `dist[dist.length - 1].bin_end`, passed in
by the caller).  A `none` result models the JS `NaN` produced by `0/0` when
the selected bin has zero count (and, for the fallback, the exception on an
empty input, where `dist[-1].bin_end` would throw). -/
def findQuantileLoop (targetCount : ℚ) :
    List Distribution → ℚ → Option ℚ → Option ℚ
  | [], _, lastEnd => lastEnd
  | bin :: rest, cumulativeCount, lastEnd =>
    let prevCumulative := cumulativeCount
    let cum := cumulativeCount + bin.count
    if targetCount ≤ cum then
      if bin.count = 0 then none
      else
        some (bin.bin_start +
          ((targetCount - prevCumulative) / bin.count) *
            (bin.bin_end - bin.bin_start))
    else findQuantileLoop targetCount rest cum lastEnd

/-- The source helper `findQuantile(targetPercentile)`: it closes over `dist`
and `totalCount`, which are explicit parameters here. -/
def findQuantile (dist : List Distribution) (total : ℚ)
    (targetPercentile : ℚ) : Option ℚ :=
  findQuantileLoop (targetPercentile * total) dist 0
    ((dist.getLast?).map fun b => b.bin_end)

/-- Rounding to one decimal place, the source `Number(x.toFixed(1))`:
`toFixed` picks the closest multiple of `1/10`, ties towards `+∞`, which is
exactly `⌊10 x + 1/2⌋ / 10`, i.e. Mathlib's `round`. -/
def round1 (x : ℚ) : ℚ :=
  (round (10 * x) : ℤ) / 10

/-- The record returned by `calculateQuantiles`.  The quantile fields are
`Option ℚ` because `findQuantile` can produce `NaN` (see above); `avg` is
always a number since its division is guarded by `totalCount > 0`. -/
structure Quantiles where
  avg : ℚ
  q5 : Option ℚ
  q25 : Option ℚ
  q75 : Option ℚ
  q95 : Option ℚ
  q99 : Option ℚ
deriving DecidableEq

/-- The source `calculateQuantiles(dist)` from `src/utils/calculations.ts`:
empty (or missing) input short-circuits to all-zero output; otherwise the
weighted average and the five interpolated quantiles, each rounded to one
decimal. -/
def calculateQuantiles (dist : List Distribution) : Quantiles :=
  if dist.isEmpty then ⟨0, some 0, some 0, some 0, some 0, some 0⟩
  else
    let total := totalCount dist
    let avg := if 0 < total then weightedSum dist / total else 0
    { avg := round1 avg
      q5 := (findQuantile dist total (5 / 100)).map round1
      q25 := (findQuantile dist total (25 / 100)).map round1
      q75 := (findQuantile dist total (75 / 100)).map round1
      q95 := (findQuantile dist total (95 / 100)).map round1
      q99 := (findQuantile dist total (99 / 100)).map round1 }

/-- Well-formedness of a bin sequence per the spec data model: non-negative
counts, `bin_start ≤ bin_end` in every bin, and consecutive bins
non-overlapping and sorted ascending (`bin_end ≤` next `bin_start`). -/
def binsWF : List Distribution → Bool
  | [] => true
  | [b] => decide (0 ≤ b.count) && decide (b.bin_start ≤ b.bin_end)
  | b :: b' :: rest =>
    decide (0 ≤ b.count) && decide (b.bin_start ≤ b.bin_end) &&
      decide (b.bin_end ≤ b'.bin_start) && binsWF (b' :: rest)

lemma cumCount_nil (n : ℕ) : cumCount [] n = 0 := by
  simp [cumCount]

lemma cumCount_zero (dist : List Distribution) : cumCount dist 0 = 0 := by
  simp [cumCount]

lemma cumCount_cons_succ (b : Distribution) (l : List Distribution) (n : ℕ) :
    cumCount (b :: l) (n + 1) = b.count + cumCount l n := by
  simp [cumCount]

lemma binsWF_cons (b : Distribution) (l : List Distribution)
    (h : binsWF (b :: l) = true) :
    0 ≤ b.count ∧ b.bin_start ≤ b.bin_end ∧ binsWF l = true := by
  cases l with
  | nil =>
    simp only [binsWF, Bool.and_eq_true, decide_eq_true_eq] at h
    exact ⟨h.1, h.2, rfl⟩
  | cons b' rest =>
    simp only [binsWF, Bool.and_eq_true, decide_eq_true_eq] at h
    exact ⟨h.1.1.1, h.1.1.2, h.2⟩

lemma binsWF_cons_cons (b b' : Distribution) (l : List Distribution)
    (h : binsWF (b :: b' :: l) = true) : b.bin_end ≤ b'.bin_start := by
  simp only [binsWF, Bool.and_eq_true, decide_eq_true_eq] at h
  exact h.1.2

lemma binsWF_mem (l : List Distribution) (h : binsWF l = true) :
    ∀ b ∈ l, 0 ≤ b.count ∧ b.bin_start ≤ b.bin_end := by
  induction l with
  | nil => intro b hb; cases hb
  | cons x xs ih =>
    intro b hb
    rcases binsWF_cons x xs h with ⟨h1, h2, h3⟩
    rcases List.mem_cons.mp hb with rfl | hb'
    · exact ⟨h1, h2⟩
    · exact ih h3 b hb'

/-- Every later bin starts at or after the head bin's end. -/
lemma binsWF_head_le (b : Distribution) (l : List Distribution)
    (h : binsWF (b :: l) = true) :
    ∀ b' ∈ l, b.bin_end ≤ b'.bin_start := by
  induction l generalizing b with
  | nil => intro b' hb'; cases hb'
  | cons c rest ih =>
    intro b' hb'
    have hbc : b.bin_end ≤ c.bin_start := binsWF_cons_cons b c rest h
    have htail : binsWF (c :: rest) = true := (binsWF_cons b (c :: rest) h).2.2
    rcases List.mem_cons.mp hb' with rfl | hmem
    · exact hbc
    · have hc := binsWF_cons c rest htail
      exact le_trans (le_trans hbc hc.2.1) (ih c htail b' hmem)

/-- Every bin's end is at most the last bin's end. -/
lemma binsWF_le_lastEnd (l : List Distribution) (h : binsWF l = true) :
    ∀ b ∈ l, ∀ bl, l.getLast? = some bl → b.bin_end ≤ bl.bin_end := by
  induction l with
  | nil => intro b hb; cases hb
  | cons x xs ih =>
    intro b hb bl hbl
    cases xs with
    | nil =>
      simp only [List.getLast?_singleton, Option.some.injEq] at hbl
      rcases List.mem_singleton.mp hb with rfl
      rw [← hbl]
    | cons y ys =>
      rw [List.getLast?_cons_cons] at hbl
      have htail : binsWF (y :: ys) = true := (binsWF_cons x (y :: ys) h).2.2
      rcases List.mem_cons.mp hb with rfl | hmem
      · have h1 : b.bin_end ≤ y.bin_start := binsWF_cons_cons b y ys h
        have h2 : y.bin_start ≤ y.bin_end := (binsWF_cons y ys htail).2.1
        exact le_trans (le_trans h1 h2)
          (ih htail y (List.mem_cons_self y ys) bl hbl)
      · exact ih htail b hmem bl hbl

lemma findQuantileLoop_nil (t c : ℚ) (le : Option ℚ) :
    findQuantileLoop t [] c le = le := rfl

lemma findQuantileLoop_cons (t c : ℚ) (le : Option ℚ) (b : Distribution)
    (rest : List Distribution) :
    findQuantileLoop t (b :: rest) c le =
      if t ≤ c + b.count then
        if b.count = 0 then none
        else
          some (b.bin_start +
            ((t - c) / b.count) * (b.bin_end - b.bin_start))
      else findQuantileLoop t rest (c + b.count) le := rfl

/-- The loop returns the interpolated value inside the first bin whose
cumulative count reaches or exceeds the target. -/
lemma findQuantileLoop_interp (t : ℚ) :
    ∀ (l : List Distribution) (c : ℚ) (le : Option ℚ) (i : ℕ)
      (hi : i < l.length),
      c < t →
      t ≤ c + cumCount l (i + 1) →
      (∀ j < i, c + cumCount l (j + 1) < t) →
      findQuantileLoop t l c le =
        some ((l.get ⟨i, hi⟩).bin_start +
          ((t - (c + cumCount l i)) / (l.get ⟨i, hi⟩).count) *
            ((l.get ⟨i, hi⟩).bin_end - (l.get ⟨i, hi⟩).bin_start)) := by
  intro l
  induction l with
  | nil => intro c le i hi; cases hi
  | cons b rest ih =>
    intro c le i hi hct hreach hfirst
    cases i with
    | zero =>
      have h1 : t ≤ c + b.count := by
        rwa [cumCount_cons_succ, cumCount_zero, add_zero] at hreach
      have hcount : 0 < b.count := by linarith
      rw [findQuantileLoop_cons, if_pos h1, if_neg (ne_of_gt hcount)]
      simp [cumCount_zero]
    | succ i' =>
      have h0 : c + b.count < t := by
        have := hfirst 0 (Nat.succ_pos i')
        rwa [cumCount_cons_succ, cumCount_zero, add_zero] at this
      rw [findQuantileLoop_cons, if_neg (not_le.mpr h0)]
      have hi' : i' < rest.length := by
        simpa [Nat.succ_lt_succ_iff] using hi
      have hreach' : t ≤ (c + b.count) + cumCount rest (i' + 1) := by
        rw [cumCount_cons_succ] at hreach; linarith
      have hfirst' : ∀ j < i', (c + b.count) + cumCount rest (j + 1) < t := by
        intro j hj
        have := hfirst (j + 1) (Nat.succ_lt_succ hj)
        rw [cumCount_cons_succ] at this; linarith
      have hget : (b :: rest).get ⟨i' + 1, hi⟩ = rest.get ⟨i', hi'⟩ := rfl
      rw [hget, cumCount_cons_succ, ← add_assoc]
      exact ih (c + b.count) le i' hi' h0 hreach' hfirst'

/-- If no prefix of the bins ever accumulates to the target, the loop falls
through and returns the `lastEnd` argument. -/
lemma findQuantileLoop_fallback (t : ℚ) :
    ∀ (l : List Distribution) (c : ℚ) (le : Option ℚ),
      (∀ j < l.length, c + cumCount l (j + 1) < t) →
      findQuantileLoop t l c le = le := by
  intro l
  induction l with
  | nil => intro c le _; rfl
  | cons b rest ih =>
    intro c le h
    have h0 : c + b.count < t := by
      have := h 0 (Nat.succ_pos rest.length)
      rwa [cumCount_cons_succ, cumCount_zero, add_zero] at this
    rw [findQuantileLoop_cons, if_neg (not_le.mpr h0)]
    apply ih
    intro j hj
    have := h (j + 1) (Nat.succ_lt_succ hj)
    rw [cumCount_cons_succ] at this
    linarith

/-- As long as the running count starts strictly below the target and the
bins can reach it, the loop returns an actual number (never the `NaN`
branch, never the fallback). -/
lemma findQuantileLoop_isSome (t : ℚ) :
    ∀ (l : List Distribution) (c : ℚ) (le : Option ℚ),
      c < t → t ≤ c + cumCount l l.length →
      ∃ v, findQuantileLoop t l c le = some v := by
  intro l
  induction l with
  | nil =>
    intro c le h1 h2
    rw [cumCount_nil, add_zero] at h2
    exact absurd (lt_of_lt_of_le h1 h2) (lt_irrefl c)
  | cons b rest ih =>
    intro c le h1 h2
    rw [findQuantileLoop_cons]
    by_cases hb : t ≤ c + b.count
    · have hcount : ¬ b.count = 0 := by
        intro h0; rw [h0, add_zero] at hb
        exact absurd (lt_of_lt_of_le h1 hb) (lt_irrefl c)
      rw [if_pos hb, if_neg hcount]
      exact ⟨_, rfl⟩
    · rw [if_neg hb]
      apply ih (c + b.count) le (not_le.mp hb)
      rw [List.length_cons, cumCount_cons_succ] at h2
      linarith

/-- Lower bound on the loop's numeric result: if every bin of `l` starts at
or above `lb` and the fallback is bounded below by `lb`, so is the result. -/
lemma findQuantileLoop_lb (t : ℚ) :
    ∀ (l : List Distribution) (c lb : ℚ) (le : Option ℚ) (v : ℚ),
      (∀ b ∈ l, 0 ≤ b.count ∧ b.bin_start ≤ b.bin_end) →
      (∀ b ∈ l, lb ≤ b.bin_start) →
      (∀ w, le = some w → lb ≤ w) →
      c < t →
      findQuantileLoop t l c le = some v → lb ≤ v := by
  intro l
  induction l with
  | nil =>
    intro c lb le v _ _ hle _ hv
    exact hle v hv
  | cons b rest ih =>
    intro c lb le v hwf hst hle hct hv
    rw [findQuantileLoop_cons] at hv
    by_cases hb : t ≤ c + b.count
    · have hcount : 0 < b.count := by linarith
      rw [if_pos hb, if_neg (ne_of_gt hcount)] at hv
      have hv' := Option.some.inj hv
      have hse : b.bin_start ≤ b.bin_end := (hwf b (List.mem_cons_self b rest)).2
      have hpos : 0 ≤ (t - c) / b.count :=
        div_nonneg (by linarith) (le_of_lt hcount)
      have : 0 ≤ ((t - c) / b.count) * (b.bin_end - b.bin_start) :=
        mul_nonneg hpos (by linarith)
      have hlb : lb ≤ b.bin_start := hst b (List.mem_cons_self b rest)
      rw [← hv']
      linarith
    · rw [if_neg hb] at hv
      exact ih (c + b.count) lb le v
        (fun b' hb' => hwf b' (List.mem_cons_of_mem b hb'))
        (fun b' hb' => hst b' (List.mem_cons_of_mem b hb'))
        hle (not_le.mp hb) hv

/-- Monotonicity of the loop in the target count, for well-formed bins whose
fallback bounds every bin's end from above. -/
lemma findQuantileLoop_mono (t t' : ℚ) (htt : t ≤ t') :
    ∀ (l : List Distribution) (c : ℚ) (le : Option ℚ) (v v' : ℚ),
      binsWF l = true →
      (∀ w, le = some w → ∀ b ∈ l, b.bin_end ≤ w) →
      c < t →
      findQuantileLoop t l c le = some v →
      findQuantileLoop t' l c le = some v' →
      v ≤ v' := by
  intro l
  induction l with
  | nil =>
    intro c le v v' _ _ _ hv hv'
    rw [findQuantileLoop_nil] at hv hv'
    rw [hv] at hv'
    rw [Option.some.inj hv']
  | cons b rest ih =>
    intro c le v v' hwf hle hct hv hv'
    rcases binsWF_cons b rest hwf with ⟨hbc, hbse, hwfr⟩
    rw [findQuantileLoop_cons] at hv hv'
    by_cases h1 : t' ≤ c + b.count
    · have h0 : t ≤ c + b.count := le_trans htt h1
      have hcount : 0 < b.count := by linarith
      rw [if_pos h0, if_neg (ne_of_gt hcount)] at hv
      rw [if_pos h1, if_neg (ne_of_gt hcount)] at hv'
      rw [← Option.some.inj hv, ← Option.some.inj hv']
      have hdiv : (t - c) / b.count ≤ (t' - c) / b.count := by
        gcongr
      have := mul_le_mul_of_nonneg_right hdiv (by linarith : (0:ℚ) ≤ b.bin_end - b.bin_start)
      linarith
    · by_cases h0 : t ≤ c + b.count
      · -- the two targets land in different bins
        have hcount : 0 < b.count := by linarith
        rw [if_pos h0, if_neg (ne_of_gt hcount)] at hv
        rw [if_neg h1] at hv'
        have hvle : v ≤ b.bin_end := by
          have hfle : (t - c) / b.count ≤ 1 :=
            (div_le_one hcount).mpr (by linarith)
          have := mul_le_mul_of_nonneg_right hfle
            (by linarith : (0:ℚ) ≤ b.bin_end - b.bin_start)
          rw [← Option.some.inj hv]
          linarith
        have hend : b.bin_end ≤ v' :=
          findQuantileLoop_lb t' rest (c + b.count) b.bin_end le v'
            (binsWF_mem rest hwfr)
            (binsWF_head_le b rest hwf)
            (fun w hw => hle w hw b (List.mem_cons_self b rest))
            (not_le.mp h1) hv'
        exact le_trans hvle hend
      · rw [if_neg h0] at hv
        rw [if_neg h1] at hv'
        exact ih (c + b.count) le v v' hwfr
          (fun w hw b' hb' => hle w hw b' (List.mem_cons_of_mem b hb'))
          (not_le.mp h0) hv hv'

lemma cumCount_length (dist : List Distribution) :
    cumCount dist dist.length = totalCount dist := by
  simp [cumCount, totalCount]

lemma calculateQuantiles_of_ne_nil (dist : List Distribution)
    (h : ¬ dist.isEmpty = true) :
    calculateQuantiles dist =
      { avg := round1
          (if 0 < totalCount dist then weightedSum dist / totalCount dist
           else 0)
        q5 := (findQuantile dist (totalCount dist) (5 / 100)).map round1
        q25 := (findQuantile dist (totalCount dist) (25 / 100)).map round1
        q75 := (findQuantile dist (totalCount dist) (75 / 100)).map round1
        q95 := (findQuantile dist (totalCount dist) (95 / 100)).map round1
        q99 := (findQuantile dist (totalCount dist) (99 / 100)).map round1 } := by
  unfold calculateQuantiles
  rw [if_neg h]

lemma round1_mono {x y : ℚ} (h : x ≤ y) : round1 x ≤ round1 y := by
  unfold round1
  have h1 : round (10 * x) ≤ round (10 * y) := by
    rw [round_eq, round_eq]
    exact Int.floor_le_floor (by linarith)
  have h2 : ((round (10 * x) : ℤ) : ℚ) ≤ ((round (10 * y) : ℤ) : ℚ) :=
    Int.cast_le.mpr h1
  linarith

/-- C2: for a well-formed bin sequence with positive total and any positive
quantile fraction `p` (in particular each of `0.05, 0.25, 0.75, 0.95, 0.99`),
`findQuantile` accumulates bin counts until the running total first reaches
or exceeds `p * total_count`, returns
`bin_start + ((target - running_before) / count) * (bin_end - bin_start)`
for that bin, and returns the final bin's upper edge whenever accumulation
never reaches the target. -/
theorem findQuantile_accumulate_interpolate
    (dist : List Distribution) (p : ℚ)
    (_hwf : binsWF dist = true) (hp : 0 < p) (htot : 0 < totalCount dist) :
    (∀ i : ℕ, ∀ hi : i < dist.length,
        p * totalCount dist ≤ cumCount dist (i + 1) →
        (∀ j < i, cumCount dist (j + 1) < p * totalCount dist) →
        findQuantile dist (totalCount dist) p =
          some ((dist.get ⟨i, hi⟩).bin_start +
            ((p * totalCount dist - cumCount dist i) /
                (dist.get ⟨i, hi⟩).count) *
              ((dist.get ⟨i, hi⟩).bin_end - (dist.get ⟨i, hi⟩).bin_start))) ∧
    (∀ bl, dist.getLast? = some bl →
        (∀ j < dist.length, cumCount dist (j + 1) < p * totalCount dist) →
        findQuantile dist (totalCount dist) p = some bl.bin_end) := by
  have h0 : (0 : ℚ) < p * totalCount dist := mul_pos hp htot
  constructor
  · intro i hi hreach hfirst
    unfold findQuantile
    have := findQuantileLoop_interp (p * totalCount dist) dist 0
      ((dist.getLast?).map fun b => b.bin_end) i hi (by linarith)
      (by rw [zero_add]; exact hreach)
      (by intro j hj; rw [zero_add]; exact hfirst j hj)
    rw [this, zero_add]
  · intro bl hbl hall
    unfold findQuantile
    rw [findQuantileLoop_fallback
      (p * totalCount dist) dist 0 ((dist.getLast?).map fun b => b.bin_end)
      (by intro j hj; rw [zero_add]; exact hall j hj)]
    rw [hbl]
    rfl

/-- Concrete bin sequence used by several witnesses: two contiguous bins
`[0,10)` with count 4 and `[10,20)` with count 6. -/
def twoBins : List Distribution := [⟨0, 10, 4, 40⟩, ⟨10, 20, 6, 60⟩]

theorem findQuantile_accumulate_interpolate_witness :
    findQuantile twoBins (totalCount twoBins) (25 / 100) = some (25 / 4) :=
  ((findQuantile_accumulate_interpolate twoBins (25 / 100)
      (by norm_num [binsWF, twoBins]) (by norm_num)
      (by norm_num [totalCount, twoBins])).1 0 (by norm_num [twoBins])
      (by norm_num [cumCount, totalCount, twoBins])
      (fun j hj => absurd hj (Nat.not_lt_zero j))).trans
    (by norm_num [twoBins, cumCount, totalCount, List.get])

/-- C3 as stated is false on the code: a non-empty sequence of zero-count
bins makes the interpolation divide `0 / 0` (JS `NaN`, modelled `none`), so
the quantile outputs are not `0`.  Concretely, on the single zero-count bin
`[5,10)` every quantile is `NaN`. -/
theorem calculateQuantiles_zero_bins_counterexample :
    ¬ ((calculateQuantiles [⟨5, 10, 0, 0⟩]).avg = 0 ∧
       (calculateQuantiles [⟨5, 10, 0, 0⟩]).q5 = some 0 ∧
       (calculateQuantiles [⟨5, 10, 0, 0⟩]).q25 = some 0 ∧
       (calculateQuantiles [⟨5, 10, 0, 0⟩]).q75 = some 0 ∧
       (calculateQuantiles [⟨5, 10, 0, 0⟩]).q95 = some 0 ∧
       (calculateQuantiles [⟨5, 10, 0, 0⟩]).q99 = some 0) := by
  intro h
  have hnone : (calculateQuantiles [⟨5, 10, 0, 0⟩]).q5 = none := by
    norm_num [calculateQuantiles, findQuantile, findQuantileLoop, totalCount]
  rw [hnone] at h
  exact Option.noConfusion h.2.1

/-- C3 (amended): the empty distribution yields all outputs `0`; a non-empty
sequence of zero-count bins yields `avg = 0` but `NaN` (no numeric value)
for each of the five quantiles, not `0`. -/
theorem calculateQuantiles_zero_total_amended :
    calculateQuantiles [] = ⟨0, some 0, some 0, some 0, some 0, some 0⟩ ∧
    (∀ dist : List Distribution, dist ≠ [] → (∀ b ∈ dist, b.count = 0) →
      (calculateQuantiles dist).avg = 0 ∧
      (calculateQuantiles dist).q5 = none ∧
      (calculateQuantiles dist).q25 = none ∧
      (calculateQuantiles dist).q75 = none ∧
      (calculateQuantiles dist).q95 = none ∧
      (calculateQuantiles dist).q99 = none) := by
  constructor
  · rfl
  · intro dist hne hzero
    obtain ⟨b, rest, rfl⟩ : ∃ b rest, dist = b :: rest := by
      cases dist with
      | nil => exact absurd rfl hne
      | cons b rest => exact ⟨b, rest, rfl⟩
    have hb0 : b.count = 0 := hzero b (List.mem_cons_self b rest)
    have htot : totalCount (b :: rest) = 0 := by
      unfold totalCount
      apply List.sum_eq_zero
      intro x hx
      rcases List.mem_map.mp hx with ⟨c, hc, rfl⟩
      exact hzero c hc
    have hq : ∀ p : ℚ,
        findQuantile (b :: rest) (totalCount (b :: rest)) p = none := by
      intro p
      unfold findQuantile
      rw [htot, mul_zero, findQuantileLoop_cons,
        if_pos (by rw [hb0, add_zero] : (0:ℚ) ≤ 0 + b.count),
        if_pos hb0]
    have hrec := calculateQuantiles_of_ne_nil (b :: rest) (by simp)
    rw [hrec]
    refine ⟨?_, ?_, ?_, ?_, ?_, ?_⟩
    · rw [htot]
      norm_num [round1]
    · rw [hq (5 / 100)]; rfl
    · rw [hq (25 / 100)]; rfl
    · rw [hq (75 / 100)]; rfl
    · rw [hq (95 / 100)]; rfl
    · rw [hq (99 / 100)]; rfl

theorem calculateQuantiles_zero_total_witness :
    (calculateQuantiles [⟨5, 10, 0, 0⟩]).avg = 0 ∧
    (calculateQuantiles [⟨5, 10, 0, 0⟩]).q5 = none :=
  ⟨(calculateQuantiles_zero_total_amended.2 [⟨5, 10, 0, 0⟩]
      (by simp) (by norm_num)).1,
   (calculateQuantiles_zero_total_amended.2 [⟨5, 10, 0, 0⟩]
      (by simp) (by norm_num)).2.1⟩

/-- C4: for every well-formed bin sequence (non-negative counts, each bin
`bin_start ≤ bin_end`, consecutive bins non-overlapping and sorted
ascending) with positive total count, the five quantile outputs are numeric
and monotone: `q05 ≤ q25 ≤ q75 ≤ q95 ≤ q99`. -/
theorem quantiles_monotone (dist : List Distribution)
    (hwf : binsWF dist = true) (htot : 0 < totalCount dist) :
    ∃ a b c d e : ℚ,
      (calculateQuantiles dist).q5 = some a ∧
      (calculateQuantiles dist).q25 = some b ∧
      (calculateQuantiles dist).q75 = some c ∧
      (calculateQuantiles dist).q95 = some d ∧
      (calculateQuantiles dist).q99 = some e ∧
      a ≤ b ∧ b ≤ c ∧ c ≤ d ∧ d ≤ e := by
  have hne : ¬ dist.isEmpty = true := by
    cases dist with
    | nil => simp [totalCount] at htot
    | cons b rest => simp
  have hrec := calculateQuantiles_of_ne_nil dist hne
  have hle : ∀ w, ((dist.getLast?).map fun b => b.bin_end) = some w →
      ∀ b ∈ dist, b.bin_end ≤ w := by
    intro w hw b hb
    rcases Option.map_eq_some'.mp hw with ⟨bl, hbl, rfl⟩
    exact binsWF_le_lastEnd dist hwf b hb bl hbl
  have hsome : ∀ p : ℚ, 0 < p → p ≤ 1 →
      ∃ v, findQuantile dist (totalCount dist) p = some v := by
    intro p hp hp1
    apply findQuantileLoop_isSome
    · exact mul_pos hp htot
    · rw [zero_add, cumCount_length]
      have := mul_le_mul_of_nonneg_right hp1 (le_of_lt htot)
      rwa [one_mul] at this
  have hmono : ∀ p p' v v', 0 < p → p ≤ p' →
      findQuantile dist (totalCount dist) p = some v →
      findQuantile dist (totalCount dist) p' = some v' → v ≤ v' := by
    intro p p' v v' hp hpp hv hv'
    exact findQuantileLoop_mono (p * totalCount dist) (p' * totalCount dist)
      (mul_le_mul_of_nonneg_right hpp (le_of_lt htot)) dist 0 _ v v'
      hwf hle (mul_pos hp htot) hv hv'
  obtain ⟨v5, h5⟩ := hsome (5 / 100) (by norm_num) (by norm_num)
  obtain ⟨v25, h25⟩ := hsome (25 / 100) (by norm_num) (by norm_num)
  obtain ⟨v75, h75⟩ := hsome (75 / 100) (by norm_num) (by norm_num)
  obtain ⟨v95, h95⟩ := hsome (95 / 100) (by norm_num) (by norm_num)
  obtain ⟨v99, h99⟩ := hsome (99 / 100) (by norm_num) (by norm_num)
  refine ⟨round1 v5, round1 v25, round1 v75, round1 v95, round1 v99,
    ?_, ?_, ?_, ?_, ?_,
    round1_mono (hmono _ _ _ _ (by norm_num) (by norm_num) h5 h25),
    round1_mono (hmono _ _ _ _ (by norm_num) (by norm_num) h25 h75),
    round1_mono (hmono _ _ _ _ (by norm_num) (by norm_num) h75 h95),
    round1_mono (hmono _ _ _ _ (by norm_num) (by norm_num) h95 h99)⟩
  · rw [hrec]
    show (findQuantile dist (totalCount dist) (5 / 100)).map round1 =
      some (round1 v5)
    rw [h5]
    rfl
  · rw [hrec]
    show (findQuantile dist (totalCount dist) (25 / 100)).map round1 =
      some (round1 v25)
    rw [h25]
    rfl
  · rw [hrec]
    show (findQuantile dist (totalCount dist) (75 / 100)).map round1 =
      some (round1 v75)
    rw [h75]
    rfl
  · rw [hrec]
    show (findQuantile dist (totalCount dist) (95 / 100)).map round1 =
      some (round1 v95)
    rw [h95]
    rfl
  · rw [hrec]
    show (findQuantile dist (totalCount dist) (99 / 100)).map round1 =
      some (round1 v99)
    rw [h99]
    rfl

theorem quantiles_monotone_witness :
    ∃ a b c d e : ℚ,
      (calculateQuantiles twoBins).q5 = some a ∧
      (calculateQuantiles twoBins).q25 = some b ∧
      (calculateQuantiles twoBins).q75 = some c ∧
      (calculateQuantiles twoBins).q95 = some d ∧
      (calculateQuantiles twoBins).q99 = some e ∧
      a ≤ b ∧ b ≤ c ∧ c ≤ d ∧ d ≤ e :=
  quantiles_monotone twoBins (by norm_num [binsWF, twoBins])
    (by norm_num [totalCount, twoBins])

/-- An entity/keyword entry, the source `NameCount` record `{name, count}`
consumed by `normalizeAndSlice`. -/
structure NameCount where
  name : String
  count : ℚ
deriving DecidableEq

/-- JS `String.prototype.toLowerCase()`: the per-character simple case
mapping (via `Char.toLower`, which covers the ASCII range occurring in the
spec's examples), written over `String.data` so concrete instances compute.
All general lemmas below use this as an opaque function, so none depends on
the extent of the case table. -/
def jsToLower (s : String) : String :=
  ⟨s.data.map Char.toLower⟩

/-- The collision test `item.name[0] === item.name[0].toUpperCase()` of
`normalizeAndSlice`.  On an empty name the source would throw a `TypeError`
(`undefined.toUpperCase()`); we return `false` there (keep the existing
display name) — no claim depends on that branch. -/
def isUpperFirst (s : String) : Bool :=
  match s.data with
  | [] => false
  | c :: _ => c = c.toUpper

/-- The collision branch of `normalizeAndSlice`: `existing.count +=
item.count`, then `existing.name = item.name` if the incoming variant's
first character is upper-case. -/
def applyCollision (item existing : NameCount) : NameCount :=
  let e1 : NameCount := { existing with count := existing.count + item.count }
  if isUpperFirst item.name then { e1 with name := item.name } else e1

/-- Update the entry with the given key in the insertion-ordered association
list that models the JS `Map` (keys are unique by construction). -/
def updateEntry (key : String) (item : NameCount) :
    List (String × NameCount) → List (String × NameCount)
  | [] => []
  | (k, e) :: rest =>
    if k = key then (k, applyCollision item e) :: rest
    else (k, e) :: updateEntry key item rest

/-- The `for` loop of `normalizeAndSlice`: fold the items into the `Map`
keyed by the lower-cased name.  A JS `Map` preserves key insertion order
(updating a value does not move the key), modelled by an insertion-ordered
association list; the non-collision branch stores the spread copy
`{ ...item }`. -/
def foldEntities :
    List NameCount → List (String × NameCount) → List (String × NameCount)
  | [], acc => acc
  | item :: rest, acc =>
    let lower := jsToLower item.name
    if acc.any fun kv => kv.1 = lower then
      foldEntities rest (updateEntry lower item acc)
    else
      foldEntities rest (acc ++ [(lower, item)])

/-- Insert `x` before the first element whose count is `≤ x.count`;
elements strictly greater stay in front. -/
def insertByCountDesc (x : NameCount) : List NameCount → List NameCount
  | [] => [x]
  | y :: ys =>
    if y.count ≤ x.count then x :: y :: ys else y :: insertByCountDesc x ys

/-- `Array.prototype.sort((a, b) => b.count - a.count)`: per ES2019 this is
a stable sort, i.e. the unique count-descending permutation that preserves
the relative order of equal counts.  The insertion formulation below has
exactly those two properties (proved in `sortByCountDesc_pairwise` and
`filter_sortByCountDesc`), so it is extensionally the source sort. -/
def sortByCountDesc : List NameCount → List NameCount
  | [] => []
  | x :: xs => insertByCountDesc x (sortByCountDesc xs)

/-- The source `normalizeAndSlice(items, limit)` from
`generateEntitiesSection`: dedupe case-insensitive variants, sum their
counts, sort by count descending (stable) and truncate to `limit`. -/
def normalizeAndSlice (items : List NameCount) (limit : ℕ) : List NameCount :=
  (sortByCountDesc ((foldEntities items []).map Prod.snd)).take limit

/-- C5: in either input order, the pair `{"OpenAI", 3}` and `{"openai", 2}`
canonicalizes to the single entry `{"OpenAI", 5}`: case-insensitive
duplicates merge by summing counts and the upper-cased variant wins the
display name. -/
theorem normalizeAndSlice_merges_openai (limit : ℕ) (hl : 1 ≤ limit) :
    normalizeAndSlice [⟨"OpenAI", 3⟩, ⟨"openai", 2⟩] limit =
      [⟨"OpenAI", 5⟩] ∧
    normalizeAndSlice [⟨"openai", 2⟩, ⟨"OpenAI", 3⟩] limit =
      [⟨"OpenAI", 5⟩] := by
  obtain ⟨m, rfl⟩ : ∃ m, limit = m + 1 := ⟨limit - 1, by omega⟩
  constructor <;>
    (norm_num [normalizeAndSlice, foldEntities, updateEntry, applyCollision,
      isUpperFirst, jsToLower, sortByCountDesc, insertByCountDesc]
     decide)

theorem normalizeAndSlice_merges_openai_witness :
    normalizeAndSlice [⟨"OpenAI", 3⟩, ⟨"openai", 2⟩] 5 = [⟨"OpenAI", 5⟩] ∧
    normalizeAndSlice [⟨"openai", 2⟩, ⟨"OpenAI", 3⟩] 5 = [⟨"OpenAI", 5⟩] :=
  normalizeAndSlice_merges_openai 5 (by norm_num)

lemma mem_insertByCountDesc (x a : NameCount) (l : List NameCount) :
    a ∈ insertByCountDesc x l ↔ a = x ∨ a ∈ l := by
  induction l with
  | nil => simp [insertByCountDesc]
  | cons y ys ih =>
    by_cases h : y.count ≤ x.count
    · simp [insertByCountDesc, h]
    · simp [insertByCountDesc, h, ih]
      tauto

lemma insertByCountDesc_pairwise (x : NameCount) (l : List NameCount)
    (h : l.Pairwise fun a b => b.count ≤ a.count) :
    (insertByCountDesc x l).Pairwise fun a b => b.count ≤ a.count := by
  induction l with
  | nil => simp [insertByCountDesc]
  | cons y ys ih =>
    rcases List.pairwise_cons.mp h with ⟨hy, hys⟩
    by_cases hc : y.count ≤ x.count
    · rw [insertByCountDesc, if_pos hc]
      apply List.pairwise_cons.mpr
      refine ⟨?_, h⟩
      intro b hb
      rcases List.mem_cons.mp hb with rfl | hb'
      · exact hc
      · exact le_trans (hy b hb') hc
    · rw [insertByCountDesc, if_neg hc]
      apply List.pairwise_cons.mpr
      refine ⟨?_, ih hys⟩
      intro b hb
      rcases (mem_insertByCountDesc x b ys).mp hb with rfl | hb'
      · exact le_of_lt (not_le.mp hc)
      · exact hy b hb'

lemma sortByCountDesc_pairwise (l : List NameCount) :
    (sortByCountDesc l).Pairwise fun a b => b.count ≤ a.count := by
  induction l with
  | nil => simp [sortByCountDesc]
  | cons x xs ih => exact insertByCountDesc_pairwise x _ ih

/-- Inserting an element does not disturb the relative order of any
count-equivalence class: everything placed in front of `x` has a strictly
larger count. -/
lemma filter_insertByCountDesc (x : NameCount) (l : List NameCount) (c : ℚ) :
    (insertByCountDesc x l).filter (fun a => a.count = c) =
      if x.count = c then x :: l.filter (fun a => a.count = c)
      else l.filter (fun a => a.count = c) := by
  induction l with
  | nil =>
    by_cases h : x.count = c <;> simp [insertByCountDesc, h]
  | cons y ys ih =>
    by_cases hc : y.count ≤ x.count
    · rw [insertByCountDesc, if_pos hc]
      by_cases hx : x.count = c <;> simp [List.filter_cons, hx]
    · rw [insertByCountDesc, if_neg hc]
      by_cases hy2 : y.count = c
      · have hx : ¬ x.count = c := by
          intro h
          rw [h, hy2] at hc
          exact hc (le_refl c)
        simp [List.filter_cons, hy2, ih, hx]
      · simp [List.filter_cons, hy2, ih]

/-- The stable-sort law: restricted to any fixed count, the sorted list is
the input list (relative order of ties is preserved). -/
lemma filter_sortByCountDesc (l : List NameCount) (c : ℚ) :
    (sortByCountDesc l).filter (fun a => a.count = c) =
      l.filter (fun a => a.count = c) := by
  induction l with
  | nil => rfl
  | cons x xs ih =>
    rw [sortByCountDesc, filter_insertByCountDesc, List.filter_cons]
    by_cases h : x.count = c
    · rw [if_pos h, ih]
      simp [h]
    · rw [if_neg h, ih]
      simp [h]

/-- C6: the top-K ranker sorts the canonicalized entries descending by
count, ties keeping their first-seen (fold/insertion) order, then truncates
to `K`; concretely, with `K = 2` over `[{a,10},{b,10},{c,5}]` (a first-seen
before b) the result is `[a, b]` in that order. -/
theorem topk_sorted_stable_tiebreak :
    (∀ (items : List NameCount) (K : ℕ),
        (normalizeAndSlice items K).Pairwise (fun a b => b.count ≤ a.count) ∧
        (∀ c : ℚ,
          (sortByCountDesc ((foldEntities items []).map Prod.snd)).filter
              (fun a => a.count = c) =
            ((foldEntities items []).map Prod.snd).filter
              (fun a => a.count = c))) ∧
    normalizeAndSlice [⟨"a", 10⟩, ⟨"b", 10⟩, ⟨"c", 5⟩] 2 =
      [⟨"a", 10⟩, ⟨"b", 10⟩] := by
  constructor
  · intro items K
    constructor
    · exact List.Pairwise.sublist (List.take_sublist _ _)
        (sortByCountDesc_pairwise _)
    · intro c
      exact filter_sortByCountDesc _ c
  · norm_num [normalizeAndSlice, foldEntities, updateEntry, applyCollision,
      isUpperFirst, jsToLower, sortByCountDesc, insertByCountDesc]

lemma updateEntry_fst (key : String) (it : NameCount)
    (acc : List (String × NameCount)) :
    (updateEntry key it acc).map Prod.fst = acc.map Prod.fst := by
  induction acc with
  | nil => rfl
  | cons kv rest ih =>
    obtain ⟨k, e⟩ := kv
    by_cases h : k = key
    · simp [updateEntry, h]
    · simp [updateEntry, h, ih]

lemma updateEntry_key_inv (key : String) (it : NameCount)
    (acc : List (String × NameCount))
    (hkey : key = jsToLower it.name)
    (hinv : ∀ kv ∈ acc, kv.1 = jsToLower kv.2.name) :
    ∀ kv ∈ updateEntry key it acc, kv.1 = jsToLower kv.2.name := by
  induction acc with
  | nil => intro kv hkv; cases hkv
  | cons kv0 rest ih =>
    obtain ⟨k, e⟩ := kv0
    intro kv hkv
    by_cases h : k = key
    · rw [updateEntry, if_pos h] at hkv
      rcases List.mem_cons.mp hkv with rfl | hmem
      · show k = jsToLower (applyCollision it e).name
        unfold applyCollision
        by_cases hu : isUpperFirst it.name
        · rw [if_pos hu]
          rw [h, hkey]
        · rw [if_neg hu]
          exact hinv (k, e) (List.mem_cons_self _ _)
      · exact hinv kv (List.mem_cons_of_mem _ hmem)
    · rw [updateEntry, if_neg h] at hkv
      rcases List.mem_cons.mp hkv with rfl | hmem
      · exact hinv (k, e) (List.mem_cons_self _ _)
      · exact ih (fun kv' hkv' => hinv kv' (List.mem_cons_of_mem _ hkv')) kv hmem

/-- Invariant of the `Map` fold: keys are exactly the lower-cased names of
their values, and keys are pairwise distinct. -/
lemma foldEntities_inv (l : List NameCount) :
    ∀ acc : List (String × NameCount),
      (∀ kv ∈ acc, kv.1 = jsToLower kv.2.name) →
      (acc.map Prod.fst).Nodup →
      (∀ kv ∈ foldEntities l acc, kv.1 = jsToLower kv.2.name) ∧
      ((foldEntities l acc).map Prod.fst).Nodup := by
  induction l with
  | nil => intro acc h1 h2; exact ⟨h1, h2⟩
  | cons item rest ih =>
    intro acc h1 h2
    by_cases hany : (acc.any fun kv => kv.1 = jsToLower item.name) = true
    · rw [foldEntities]
      simp only [hany, if_true]
      exact ih (updateEntry (jsToLower item.name) item acc)
        (updateEntry_key_inv _ item acc rfl h1)
        (by rw [updateEntry_fst]; exact h2)
    · rw [foldEntities]
      simp only [hany, if_false]
      apply ih
      · intro kv hkv
        rcases List.mem_append.mp hkv with hmem | hmem
        · exact h1 kv hmem
        · rcases List.mem_singleton.mp hmem with rfl
          rfl
      · rw [List.map_append]
        apply List.Nodup.append h2 (by simp)
        intro a ha hb
        rcases List.mem_map.mp ha with ⟨kv, hkv, rfl⟩
        simp only [List.map_cons, List.map_nil, List.mem_singleton] at hb
        apply hany
        rw [List.any_eq_true]
        exact ⟨kv, hkv, by rw [hb]; simp⟩

/-- On input whose lower-cased names are fresh for the accumulator and
pairwise distinct, the fold never collides: it appends the items paired
with their lower-cased names. -/
lemma foldEntities_of_fresh (l : List NameCount) :
    ∀ acc : List (String × NameCount),
      (∀ it ∈ l, ∀ kv ∈ acc, kv.1 ≠ jsToLower it.name) →
      (l.Pairwise fun a b => jsToLower a.name ≠ jsToLower b.name) →
      foldEntities l acc = acc ++ l.map fun it => (jsToLower it.name, it) := by
  induction l with
  | nil => intro acc _ _; simp [foldEntities]
  | cons item rest ih =>
    intro acc hfresh hpair
    have hany : (acc.any fun kv => kv.1 = jsToLower item.name) = false := by
      rw [List.any_eq_false]
      intro kv hkv
      simp only [decide_eq_true_eq]
      exact hfresh item (List.mem_cons_self _ _) kv hkv
    rw [foldEntities]
    simp only [hany, Bool.false_eq_true, if_false]
    rcases List.pairwise_cons.mp hpair with ⟨hhead, htail⟩
    rw [ih (acc ++ [(jsToLower item.name, item)]) ?_ htail]
    · simp
    · intro it hit kv hkv
      rcases List.mem_append.mp hkv with hmem | hmem
      · exact hfresh it (List.mem_cons_of_mem _ hit) kv hmem
      · rcases List.mem_singleton.mp hmem with rfl
        exact hhead it hit

/-- Insertion into a list whose head already compares `≤` is the identity;
hence sorting an already-sorted list is the identity. -/
lemma sortByCountDesc_of_sorted (l : List NameCount)
    (h : l.Pairwise fun a b => b.count ≤ a.count) : sortByCountDesc l = l := by
  induction l with
  | nil => rfl
  | cons x xs ih =>
    rcases List.pairwise_cons.mp h with ⟨hx, hxs⟩
    rw [sortByCountDesc, ih hxs]
    cases xs with
    | nil => rfl
    | cons y ys =>
      rw [insertByCountDesc, if_pos (hx y (List.mem_cons_self _ _))]

lemma insertByCountDesc_perm (x : NameCount) (l : List NameCount) :
    List.Perm (insertByCountDesc x l) (x :: l) := by
  induction l with
  | nil => rfl
  | cons y ys ih =>
    by_cases h : y.count ≤ x.count
    · rw [insertByCountDesc, if_pos h]
    · rw [insertByCountDesc, if_neg h]
      exact (ih.cons y).trans (List.Perm.swap x y ys)

lemma sortByCountDesc_perm (l : List NameCount) :
    List.Perm (sortByCountDesc l) l := by
  induction l with
  | nil => rfl
  | cons x xs ih =>
    exact (insertByCountDesc_perm x _).trans (ih.cons x)

/-- C7: the canonicalizer is idempotent: `normalizeAndSlice` applied to its
own output (same limit) returns that output unchanged, in the same order. -/
theorem normalizeAndSlice_idem (items : List NameCount) (limit : ℕ) :
    normalizeAndSlice (normalizeAndSlice items limit) limit =
      normalizeAndSlice items limit := by
  have hinv := foldEntities_inv items [] (by intro kv hkv; cases hkv) (by simp)
  set folded := (foldEntities items []).map Prod.snd with hf
  have hmapeq : (foldEntities items []).map Prod.fst =
      folded.map fun it => jsToLower it.name := by
    rw [hf, List.map_map]
    exact List.map_congr_left fun kv hkv => hinv.1 kv hkv
  have hnd2 : (folded.map fun it => jsToLower it.name).Nodup := by
    rw [← hmapeq]
    exact hinv.2
  have hperm : List.Perm (sortByCountDesc folded) folded :=
    sortByCountDesc_perm folded
  have hnd3 :
      ((sortByCountDesc folded).map fun it => jsToLower it.name).Nodup :=
    ((hperm.map fun it => jsToLower it.name).nodup_iff).mpr hnd2
  have hnd4 :
      (((sortByCountDesc folded).take limit).map
        fun it => jsToLower it.name).Nodup :=
    List.Nodup.sublist ((List.take_sublist _ _).map _) hnd3
  have hpair : ((sortByCountDesc folded).take limit).Pairwise
      fun a b => jsToLower a.name ≠ jsToLower b.name :=
    (List.pairwise_map.mp hnd4)
  have hsorted : ((sortByCountDesc folded).take limit).Pairwise
      fun a b => b.count ≤ a.count :=
    List.Pairwise.sublist (List.take_sublist _ _)
      (sortByCountDesc_pairwise folded)
  have hlen : ((sortByCountDesc folded).take limit).length ≤ limit :=
    List.length_take_le _ _
  show (sortByCountDesc
      ((foldEntities ((sortByCountDesc folded).take limit) []).map
        Prod.snd)).take limit = (sortByCountDesc folded).take limit
  rw [foldEntities_of_fresh _ [] (by intro it _ kv hkv; cases hkv) hpair]
  rw [List.nil_append, List.map_map]
  have : (Prod.snd ∘ fun it : NameCount => (jsToLower it.name, it)) = id := by
    funext it; rfl
  rw [this, List.map_id]
  rw [sortByCountDesc_of_sorted _ hsorted]
  exact List.take_of_length_le hlen

/-- A top-level treemap input node: the source `NameCountWithSubs` record
`{name, count, percentage?, subdomains?}` consumed by `squarify` and
`generateTreemap` (subdomain entries are plain `{name, count}`). -/
structure NameCountWithSubs where
  name : String
  count : ℚ
  percentage : Option ℚ
  subdomains : Option (List NameCount)
deriving DecidableEq

/-- The `COLORS` palette of `treemap.ts`. -/
def COLORS : List String :=
  ["#10a37f", "#0d8c6d", "#75e0c3", "#4fcca8", "#2bb390",
   "#1a9176", "#c4f4e6", "#a8e6d3", "#7dd9c0", "#5cd4b1"]

/-- `getColor(index) = COLORS[index % COLORS.length]`. -/
def getColor (index : ℕ) : String :=
  COLORS.getD (index % COLORS.length) ""

/-- JS `q || 0` on a number: the identity except that `0` (and `NaN`,
outside this model's hypotheses) maps to `0`. -/
def jsOrZero (q : ℚ) : ℚ :=
  if q = 0 then 0 else q

/-- JS `q || 0` on a possibly-undefined number (`item.percentage || 0` at
the top level of `squarify`). -/
def jsOrZeroOpt : Option ℚ → ℚ
  | none => 0
  | some q => if q = 0 then 0 else q

/-- An item passed to the inner `squarify` call by `layoutSubdomains`:
`{name, count, percentage}`, never carrying subdomains. -/
structure BaseItem where
  name : String
  count : ℚ
  percentage : ℚ
deriving DecidableEq

/-- A child (subdomain) rectangle: a `TreemapRect` whose `children` field
is always `undefined`. -/
structure SubRect where
  x : ℚ
  y : ℚ
  width : ℚ
  height : ℚ
  name : String
  count : ℚ
  percentage : ℚ
  color : String
deriving DecidableEq

/-- A top-level `TreemapRect`; `children` is `undefined` (`none`) exactly
when the node carries no non-empty subdomain list. -/
structure TreemapRect where
  x : ℚ
  y : ℚ
  width : ℚ
  height : ℚ
  name : String
  count : ℚ
  percentage : ℚ
  color : String
  children : Option (List SubRect)
deriving DecidableEq

/-- The `items.forEach` loop of `squarify`, at the inner nesting level.  The
source `squarify` is one function used at two levels; every inner call site
(`layoutSubdomains`) passes subdomain-free items, so the bounded recursion
is embedded level by level: this loop (no child layout, items `BaseItem`)
and `squarifyLoop` below (top level, children via `layoutSubdomains`), each
a direct transcription of the same source loop.  `ratio = item.count /
totalValue`, where `totalValue` is the sum over the whole item list; a
horizontal split consumes width when `remainingWidth > remainingHeight`,
otherwise a vertical split consumes height. -/
def squarifyBaseLoop (totalValue : ℚ) (colorOffset : ℕ) :
    List BaseItem → ℕ → ℚ → ℚ → ℚ → ℚ → List SubRect
  | [], _, _, _, _, _ => []
  | item :: rest, index, currentX, currentY, remainingWidth,
      remainingHeight =>
    let frac := item.count / totalValue
    if remainingHeight < remainingWidth then
      let rectWidth := remainingWidth * frac
      { x := currentX, y := currentY, width := rectWidth,
        height := remainingHeight, name := item.name, count := item.count,
        percentage := jsOrZero item.percentage,
        color := getColor (colorOffset + index) } ::
        squarifyBaseLoop totalValue colorOffset rest (index + 1)
          (currentX + rectWidth) currentY (remainingWidth - rectWidth)
          remainingHeight
    else
      let rectHeight := remainingHeight * frac
      { x := currentX, y := currentY, width := remainingWidth,
        height := rectHeight, name := item.name, count := item.count,
        percentage := jsOrZero item.percentage,
        color := getColor (colorOffset + index) } ::
        squarifyBaseLoop totalValue colorOffset rest (index + 1)
          currentX (currentY + rectHeight) remainingWidth
          (remainingHeight - rectHeight)

/-- Inner-level `squarify(items, x, y, width, height, colorOffset)`. -/
def squarifyBase (items : List BaseItem) (x y width height : ℚ)
    (colorOffset : ℕ) : List SubRect :=
  if items.isEmpty then []
  else
    squarifyBaseLoop ((items.map fun i => i.count).sum) colorOffset items 0
      x y width height

/-- The source `layoutSubdomains`: inset the parent rectangle by `padding =
4` on all sides, drop the children entirely below the minimum readable size
(`innerWidth < 60 || innerHeight < 40`), otherwise lay the subdomains out
inside the inset rectangle with recomputed percentages. -/
def layoutSubdomains (subdomains : Option (List NameCount))
    (parentX parentY parentWidth parentHeight : ℚ) (colorOffset : ℕ) :
    List SubRect :=
  match subdomains with
  | none => []
  | some subs =>
    if subs.isEmpty then []
    else
      let padding : ℚ := 4
      let innerX := parentX + padding
      let innerY := parentY + padding
      let innerWidth := max 0 (parentWidth - padding * 2)
      let innerHeight := max 0 (parentHeight - padding * 2)
      if innerWidth < 60 ∨ innerHeight < 40 then []
      else
        let totalSubCount := (subs.map fun s => s.count).sum
        squarifyBase
          (subs.map fun sub =>
            ⟨sub.name, sub.count, sub.count / totalSubCount * 100⟩)
          innerX innerY innerWidth innerHeight (colorOffset + 10)

/-- The `items.forEach` loop of `squarify` at the top level: identical
geometry, plus the `children` field (`layoutSubdomains` inside the consumed
slice when the item has a non-empty subdomain list, `undefined`
otherwise). -/
def squarifyLoop (totalValue : ℚ) (colorOffset : ℕ) :
    List NameCountWithSubs → ℕ → ℚ → ℚ → ℚ → ℚ → List TreemapRect
  | [], _, _, _, _, _ => []
  | item :: rest, index, currentX, currentY, remainingWidth,
      remainingHeight =>
    let frac := item.count / totalValue
    if remainingHeight < remainingWidth then
      let rectWidth := remainingWidth * frac
      { x := currentX, y := currentY, width := rectWidth,
        height := remainingHeight, name := item.name, count := item.count,
        percentage := jsOrZeroOpt item.percentage,
        color := getColor (colorOffset + index),
        children :=
          match item.subdomains with
          | some subs =>
            if subs.isEmpty then none
            else
              some (layoutSubdomains (some subs) currentX currentY
                rectWidth remainingHeight (colorOffset + index))
          | none => none } ::
        squarifyLoop totalValue colorOffset rest (index + 1)
          (currentX + rectWidth) currentY (remainingWidth - rectWidth)
          remainingHeight
    else
      let rectHeight := remainingHeight * frac
      { x := currentX, y := currentY, width := remainingWidth,
        height := rectHeight, name := item.name, count := item.count,
        percentage := jsOrZeroOpt item.percentage,
        color := getColor (colorOffset + index),
        children :=
          match item.subdomains with
          | some subs =>
            if subs.isEmpty then none
            else
              some (layoutSubdomains (some subs) currentX currentY
                remainingWidth rectHeight (colorOffset + index))
          | none => none } ::
        squarifyLoop totalValue colorOffset rest (index + 1)
          currentX (currentY + rectHeight) remainingWidth
          (remainingHeight - rectHeight)

/-- Top-level `squarify(items, x, y, width, height, colorOffset = 0)`. -/
def squarify (items : List NameCountWithSubs) (x y width height : ℚ)
    (colorOffset : ℕ) : List TreemapRect :=
  if items.isEmpty then []
  else
    squarifyLoop ((items.map fun i => i.count).sum) colorOffset items 0
      x y width height

/-- The rectangle layout computed by `generateTreemap` (lines 157-162 of
`treemap.ts`): canvas `900x500`, `topDomains = domains.slice(0, 10)`,
`rects = squarify(topDomains, 0, 0, width, height)`.  The emitted SVG
serializes exactly these rectangles. -/
def generateTreemapRects (domains : List NameCountWithSubs) :
    List TreemapRect :=
  squarify (domains.take 10) 0 0 900 500 0

/-- C1 fails on the code: on counts `[50, 30, 20]` and canvas `200x100` the
three rectangle areas are `10000, 3000, 1400` — in ratio `50 : 15 : 7`, not
`5 : 3 : 2` (the second area is off by 50%, far beyond the 1% tolerance) —
and their sum `14400` leaves a `200*100 - 14400 = 5600` gap untiled,
because `squarify` divides each count by the total of all items instead of
the not-yet-laid-out remainder while still shrinking the remaining
rectangle. -/
theorem squarify_50_30_20_gap :
    ((squarify [⟨"a", 50, none, none⟩, ⟨"b", 30, none, none⟩,
        ⟨"c", 20, none, none⟩] 0 0 200 100 0).map
      fun r => r.width * r.height) = [10000, 3000, 1400] ∧
    (((squarify [⟨"a", 50, none, none⟩, ⟨"b", 30, none, none⟩,
        ⟨"c", 20, none, none⟩] 0 0 200 100 0).map
      fun r => r.width * r.height).sum ≠ 200 * 100) := by
  constructor <;>
    norm_num [squarify, squarifyLoop, layoutSubdomains, squarifyBase,
      squarifyBaseLoop, jsOrZeroOpt, getColor]

lemma squarifyLoop_cons (T : ℚ) (co : ℕ) (item : NameCountWithSubs)
    (rest : List NameCountWithSubs) (idx : ℕ) (cx cy rw rh : ℚ) :
    squarifyLoop T co (item :: rest) idx cx cy rw rh =
      if rh < rw then
        { x := cx, y := cy, width := rw * (item.count / T), height := rh,
          name := item.name, count := item.count,
          percentage := jsOrZeroOpt item.percentage,
          color := getColor (co + idx),
          children :=
            match item.subdomains with
            | some subs =>
              if subs.isEmpty then none
              else
                some (layoutSubdomains (some subs) cx cy
                  (rw * (item.count / T)) rh (co + idx))
            | none => none } ::
          squarifyLoop T co rest (idx + 1) (cx + rw * (item.count / T)) cy
            (rw - rw * (item.count / T)) rh
      else
        { x := cx, y := cy, width := rw, height := rh * (item.count / T),
          name := item.name, count := item.count,
          percentage := jsOrZeroOpt item.percentage,
          color := getColor (co + idx),
          children :=
            match item.subdomains with
            | some subs =>
              if subs.isEmpty then none
              else
                some (layoutSubdomains (some subs) cx cy rw
                  (rh * (item.count / T)) (co + idx))
            | none => none } ::
          squarifyLoop T co rest (idx + 1) cx (cy + rh * (item.count / T))
            rw (rh - rh * (item.count / T)) := rfl

/-- Each produced rectangle carries the name and count of the item at the
same position. -/
lemma squarifyLoop_map_name_count (T : ℚ) (co : ℕ) :
    ∀ (items : List NameCountWithSubs) (idx : ℕ) (cx cy rw rh : ℚ),
      (squarifyLoop T co items idx cx cy rw rh).map
          (fun r => (r.name, r.count)) =
        items.map fun i => (i.name, i.count) := by
  intro items
  induction items with
  | nil => intro idx cx cy rw rh; rfl
  | cons item rest ih =>
    intro idx cx cy rw rh
    rw [squarifyLoop_cons]
    by_cases h : rh < rw
    · rw [if_pos h]
      simp only [List.map_cons, ih]
    · rw [if_neg h]
      simp only [List.map_cons, ih]

/-- C10: the generator lays out at most the first 10 domains: the layout
depends only on `domains.slice(0, 10)`, the `i`-th rectangle comes from the
`i`-th domain (`i < 10`), and there is one rectangle per retained domain —
a domain at index 10 or beyond contributes nothing. -/
theorem generateTreemap_first_ten (domains : List NameCountWithSubs) :
    generateTreemapRects domains = generateTreemapRects (domains.take 10) ∧
    (generateTreemapRects domains).map (fun r => (r.name, r.count)) =
      (domains.take 10).map (fun d => (d.name, d.count)) ∧
    (generateTreemapRects domains).length = min domains.length 10 := by
  have hmap : (generateTreemapRects domains).map (fun r => (r.name, r.count)) =
      (domains.take 10).map fun d => (d.name, d.count) := by
    unfold generateTreemapRects squarify
    by_cases h : (domains.take 10).isEmpty
    · rw [if_pos h]
      have : domains.take 10 = [] := by
        cases heq : domains.take 10 with
        | nil => rfl
        | cons a l => rw [heq] at h; cases h
      rw [this]
      rfl
    · rw [if_neg h]
      exact squarifyLoop_map_name_count _ 0 (domains.take 10) 0 0 0 900 500
  refine ⟨?_, hmap, ?_⟩
  · unfold generateTreemapRects
    rw [List.take_take]
    norm_num
  · have hlen := congrArg List.length hmap
    simpa [List.length_take, Nat.min_comm] using hlen

lemma squarifyBaseLoop_cons (T : ℚ) (co : ℕ) (item : BaseItem)
    (rest : List BaseItem) (idx : ℕ) (cx cy rw rh : ℚ) :
    squarifyBaseLoop T co (item :: rest) idx cx cy rw rh =
      if rh < rw then
        { x := cx, y := cy, width := rw * (item.count / T), height := rh,
          name := item.name, count := item.count,
          percentage := jsOrZero item.percentage,
          color := getColor (co + idx) } ::
          squarifyBaseLoop T co rest (idx + 1) (cx + rw * (item.count / T))
            cy (rw - rw * (item.count / T)) rh
      else
        { x := cx, y := cy, width := rw, height := rh * (item.count / T),
          name := item.name, count := item.count,
          percentage := jsOrZero item.percentage,
          color := getColor (co + idx) } ::
          squarifyBaseLoop T co rest (idx + 1) cx
            (cy + rh * (item.count / T)) rw (rh - rh * (item.count / T)) :=
  rfl

/-- Geometric invariant of the inner loop: with non-negative counts bounded
by the fixed total, every produced rectangle stays inside the box
`[X, XE] x [Y, YE]` containing the current remaining rectangle. -/
lemma squarifyBaseLoop_contained (T : ℚ) (co : ℕ)
    (items : List BaseItem) :
    ∀ (idx : ℕ) (cx cy rw rh X Y XE YE : ℚ),
      (∀ it ∈ items, 0 ≤ it.count ∧ it.count ≤ T) → 0 < T →
      X ≤ cx → Y ≤ cy → 0 ≤ rw → 0 ≤ rh → cx + rw ≤ XE → cy + rh ≤ YE →
      ∀ r ∈ squarifyBaseLoop T co items idx cx cy rw rh,
        X ≤ r.x ∧ r.x + r.width ≤ XE ∧ Y ≤ r.y ∧ r.y + r.height ≤ YE := by
  induction items with
  | nil =>
    intro idx cx cy rw rh X Y XE YE _ _ _ _ _ _ _ _ r hr
    cases hr
  | cons item rest ih =>
    intro idx cx cy rw rh X Y XE YE hcts hT hX hY hrw hrh hXE hYE r hr
    have hit := hcts item (List.mem_cons_self _ _)
    have hfrac0 : 0 ≤ item.count / T := div_nonneg hit.1 (le_of_lt hT)
    have hfrac1 : item.count / T ≤ 1 := (div_le_one hT).mpr hit.2
    have hcts' : ∀ it ∈ rest, 0 ≤ it.count ∧ it.count ≤ T :=
      fun it hmem => hcts it (List.mem_cons_of_mem _ hmem)
    by_cases hsplit : rh < rw
    · rw [squarifyBaseLoop_cons, if_pos hsplit] at hr
      have hwle : rw * (item.count / T) ≤ rw :=
        mul_le_of_le_one_right hrw hfrac1
      have hw0 : 0 ≤ rw * (item.count / T) := mul_nonneg hrw hfrac0
      rcases List.mem_cons.mp hr with rfl | hr'
      · exact ⟨hX, by simp only []; linarith, hY, by simp only []; linarith⟩
      · exact ih (idx + 1) (cx + rw * (item.count / T)) cy
          (rw - rw * (item.count / T)) rh X Y XE YE hcts' hT
          (by linarith) hY (by linarith) hrh (by linarith) hYE r hr'
    · rw [squarifyBaseLoop_cons, if_neg hsplit] at hr
      have hhle : rh * (item.count / T) ≤ rh :=
        mul_le_of_le_one_right hrh hfrac1
      have hh0 : 0 ≤ rh * (item.count / T) := mul_nonneg hrh hfrac0
      rcases List.mem_cons.mp hr with rfl | hr'
      · exact ⟨hX, by simp only []; linarith, hY, by simp only []; linarith⟩
      · exact ih (idx + 1) cx (cy + rh * (item.count / T)) rw
          (rh - rh * (item.count / T)) X Y XE YE hcts' hT hX
          (by linarith) hrw (by linarith) hXE (by linarith) r hr'

lemma layoutSubdomains_some (subs : List NameCount) (px py pw ph : ℚ)
    (co : ℕ) :
    layoutSubdomains (some subs) px py pw ph co =
      if subs.isEmpty then []
      else if max 0 (pw - 4 * 2) < 60 ∨ max 0 (ph - 4 * 2) < 40 then []
      else
        squarifyBase
          (subs.map fun sub =>
            ⟨sub.name, sub.count,
              sub.count / ((subs.map fun s => s.count).sum) * 100⟩)
          (px + 4) (py + 4) (max 0 (pw - 4 * 2)) (max 0 (ph - 4 * 2))
          (co + 10) := rfl

/-- C8: every child rectangle lies inside the parent rectangle inset by the
fixed padding 4 on all four sides, and when the inset rectangle is below
the minimum size threshold (`innerWidth < 60` or `innerHeight < 40`) the
child list is empty. -/
theorem layoutSubdomains_inset_bounds (subs : List NameCount)
    (px py pw ph : ℚ) (co : ℕ)
    (hcnt : ∀ s ∈ subs, 0 ≤ s.count)
    (hpos : 0 < (subs.map fun s => s.count).sum) :
    (∀ r ∈ layoutSubdomains (some subs) px py pw ph co,
        px + 4 ≤ r.x ∧ r.x + r.width ≤ px + pw - 4 ∧
        py + 4 ≤ r.y ∧ r.y + r.height ≤ py + ph - 4) ∧
    (max 0 (pw - 8) < 60 ∨ max 0 (ph - 8) < 40 →
      layoutSubdomains (some subs) px py pw ph co = []) := by
  have h8 : (4 : ℚ) * 2 = 8 := by norm_num
  rw [layoutSubdomains_some, h8]
  by_cases hemp : subs.isEmpty
  · rw [if_pos hemp]
    exact ⟨fun r hr => absurd hr (List.not_mem_nil r), fun _ => rfl⟩
  · rw [if_neg hemp]
    by_cases hth : max 0 (pw - 8) < 60 ∨ max 0 (ph - 8) < 40
    · rw [if_pos hth]
      exact ⟨fun r hr => absurd hr (List.not_mem_nil r), fun _ => rfl⟩
    · rw [if_neg hth]
      refine ⟨?_, fun h => absurd h hth⟩
      push_neg at hth
      obtain ⟨hw60, hh40⟩ := hth
      have hpw : 60 ≤ pw - 8 := by
        by_cases h : 0 ≤ pw - 8
        · rwa [max_eq_right h] at hw60
        · rw [max_eq_left (by linarith)] at hw60
          linarith
      have hph : 40 ≤ ph - 8 := by
        by_cases h : 0 ≤ ph - 8
        · rwa [max_eq_right h] at hh40
        · rw [max_eq_left (by linarith)] at hh40
          linarith
      rw [max_eq_right (by linarith : (0:ℚ) ≤ pw - 8),
        max_eq_right (by linarith : (0:ℚ) ≤ ph - 8)]
      intro r hr
      unfold squarifyBase at hr
      have hne : ((subs.map fun sub =>
          (⟨sub.name, sub.count,
            sub.count / ((subs.map fun s => s.count).sum) * 100⟩ :
              BaseItem)).isEmpty) = false := by
        cases subs with
        | nil => exact absurd rfl hemp
        | cons a l => rfl
      rw [hne] at hr
      simp only [Bool.false_eq_true, if_false] at hr
      have hT : (((subs.map fun sub =>
          (⟨sub.name, sub.count,
            sub.count / ((subs.map fun s => s.count).sum) * 100⟩ :
              BaseItem)).map fun i => i.count).sum) =
          (subs.map fun s => s.count).sum := by
        rw [List.map_map]
        rfl
      rw [hT] at hr
      refine squarifyBaseLoop_contained ((subs.map fun s => s.count).sum)
        (co + 10) _ 0 (px + 4) (py + 4) (pw - 8) (ph - 8)
        (px + 4) (py + 4) (px + pw - 4) (py + ph - 4) ?_ hpos
        (le_refl _) (le_refl _) (by linarith) (by linarith)
        (by linarith) (by linarith) r hr
      intro it hmem
      rcases List.mem_map.mp hmem with ⟨sub, hsub, rfl⟩
      refine ⟨hcnt sub hsub, ?_⟩
      exact List.single_le_sum
        (fun x hx => by
          rcases List.mem_map.mp hx with ⟨s, hs, rfl⟩
          exact hcnt s hs)
        _ (List.mem_map_of_mem _ hsub)

theorem layoutSubdomains_inset_bounds_witness :
    (∀ r ∈ layoutSubdomains (some [⟨"api", 3⟩, ⟨"sdk", 1⟩]) 0 0 100 100 0,
        (0:ℚ) + 4 ≤ r.x ∧ r.x + r.width ≤ 0 + 100 - 4 ∧
        (0:ℚ) + 4 ≤ r.y ∧ r.y + r.height ≤ 0 + 100 - 4) ∧
    (max 0 ((100:ℚ) - 8) < 60 ∨ max 0 ((100:ℚ) - 8) < 40 →
      layoutSubdomains (some [⟨"api", 3⟩, ⟨"sdk", 1⟩]) 0 0 100 100 0 = []) :=
  layoutSubdomains_inset_bounds [⟨"api", 3⟩, ⟨"sdk", 1⟩] 0 0 100 100 0
    (by norm_num) (by norm_num)

/-- A JS heap of `{name, count}` objects addressed by allocation index.
Used to state the frame property (no mutation of inputs) of
`normalizeAndSlice`, whose source mutates `Map`-held objects in place
(`existing.count += item.count`, `existing.name = item.name`) but only ever
stores spread copies `{ ...item }` in the `Map`. -/
abbrev EntityHeap := List NameCount

/-- Dereference pointer `p`. -/
def readCell (h : EntityHeap) (p : ℕ) : NameCount :=
  h.getD p ⟨"", 0⟩

/-- Overwrite the object at pointer `p`. -/
def writeCell (h : EntityHeap) (p : ℕ) (v : NameCount) : EntityHeap :=
  h.set p v

/-- One iteration of the `normalizeAndSlice` loop in store-passing form:
the input array holds pointers; on a collision the `Map`-held object is
mutated in place, otherwise a fresh copy `{ ...item }` is allocated at the
end of the heap and keyed into the `Map`. -/
def nasHeapStep :
    EntityHeap × List (String × ℕ) → ℕ → EntityHeap × List (String × ℕ)
  | (h, m), p =>
    let item := readCell h p
    let lower := jsToLower item.name
    match m.find? (fun kv => kv.1 = lower) with
    | some kv =>
      (writeCell h kv.2 (applyCollision item (readCell h kv.2)), m)
    | none => (h ++ [item], m ++ [(lower, h.length)])

lemma nasHeapStep_eq (h : EntityHeap) (m : List (String × ℕ)) (p : ℕ) :
    nasHeapStep (h, m) p =
      match m.find? (fun kv => kv.1 = jsToLower (readCell h p).name) with
      | some kv =>
        (writeCell h kv.2 (applyCollision (readCell h p) (readCell h kv.2)),
          m)
      | none =>
        (h ++ [readCell h p],
          m ++ [(jsToLower (readCell h p).name, h.length)]) := rfl

/-- Stable descending pointer sort by the pointed-to `count` (the JS sort
compares through the references); it performs no heap writes. -/
def insertPtrByCountDesc (h : EntityHeap) (x : ℕ) : List ℕ → List ℕ
  | [] => [x]
  | y :: ys =>
    if (readCell h y).count ≤ (readCell h x).count then x :: y :: ys
    else y :: insertPtrByCountDesc h x ys

def sortPtrsByCountDesc (h : EntityHeap) : List ℕ → List ℕ
  | [] => []
  | x :: xs => insertPtrByCountDesc h x (sortPtrsByCountDesc h xs)

/-- Store-passing `normalizeAndSlice`: returns the final heap and the
pointers of the result array (these alias the `Map`'s fresh copies, never
the input objects). -/
def normalizeAndSliceHeap (h : EntityHeap) (items : List ℕ) (limit : ℕ) :
    EntityHeap × List ℕ :=
  let hm := items.foldl nasHeapStep (h, [])
  (hm.1, (sortPtrsByCountDesc hm.1 (hm.2.map Prod.snd)).take limit)

/-- Store-passing `calculateQuantiles`: the source loops only read bin
fields (`totalCount += bin.count`, ...) and contain no object writes, so
the heap threads through unchanged. -/
def calculateQuantilesHeap (h : List Distribution) (ps : List ℕ) :
    List Distribution × Quantiles :=
  (h, calculateQuantiles (ps.map fun p => h.getD p ⟨0, 0, 0, 0⟩))

lemma readCell_write_ne (h : EntityHeap) (q : ℕ) (v : NameCount) (p : ℕ)
    (hne : p ≠ q) : readCell (writeCell h q v) p = readCell h p := by
  unfold readCell writeCell
  rw [List.getD_eq_getElem?_getD, List.getD_eq_getElem?_getD,
    List.getElem?_set_ne (fun h => hne h.symm)]

lemma readCell_append_lt (h : EntityHeap) (x : NameCount) (p : ℕ)
    (hp : p < h.length) : readCell (h ++ [x]) p = readCell h p := by
  unfold readCell
  rw [List.getD_eq_getElem?_getD, List.getD_eq_getElem?_getD,
    List.getElem?_append_left hp]

/-- Fold invariant: the heap only grows, every `Map` pointer is at least
`n` (the original heap size), and every cell below `n` is untouched. -/
lemma nasHeapFold_frame (items : List ℕ) :
    ∀ (st : EntityHeap × List (String × ℕ)) (n : ℕ),
      n ≤ st.1.length →
      (∀ kv ∈ st.2, n ≤ kv.2) →
      n ≤ (items.foldl nasHeapStep st).1.length ∧
      (∀ kv ∈ (items.foldl nasHeapStep st).2, n ≤ kv.2) ∧
      (∀ p < n, readCell (items.foldl nasHeapStep st).1 p =
        readCell st.1 p) := by
  induction items with
  | nil =>
    intro st n h1 h2
    exact ⟨h1, h2, fun p _ => rfl⟩
  | cons q rest ih =>
    intro st n h1 h2
    obtain ⟨h, m⟩ := st
    rw [List.foldl_cons]
    cases hfind :
        m.find? (fun kv => kv.1 = jsToLower (readCell h q).name) with
    | some kv =>
      have hkv : kv ∈ m := List.mem_of_find?_eq_some hfind
      have hstep : nasHeapStep (h, m) q =
          (writeCell h kv.2
            (applyCollision (readCell h q) (readCell h kv.2)), m) := by
        rw [nasHeapStep_eq, hfind]
      rw [hstep]
      have hlen : (writeCell h kv.2
          (applyCollision (readCell h q) (readCell h kv.2))).length =
          h.length := List.length_set h _ _
      obtain ⟨g1, g2, g3⟩ := ih
        (writeCell h kv.2
          (applyCollision (readCell h q) (readCell h kv.2)), m) n
        (by rw [hlen]; exact h1) h2
      refine ⟨g1, g2, fun p hp => ?_⟩
      rw [g3 p hp]
      exact readCell_write_ne h kv.2 _ p
        (Nat.ne_of_lt (lt_of_lt_of_le hp (h2 kv hkv)))
    | none =>
      have hstep : nasHeapStep (h, m) q =
          (h ++ [readCell h q],
            m ++ [(jsToLower (readCell h q).name, h.length)]) := by
        rw [nasHeapStep_eq, hfind]
      rw [hstep]
      obtain ⟨g1, g2, g3⟩ := ih
        (h ++ [readCell h q],
          m ++ [(jsToLower (readCell h q).name, h.length)]) n
        (by
          have h1' : n ≤ h.length := h1
          calc n ≤ h.length := h1'
            _ ≤ (h ++ [readCell h q]).length := by simp)
        (by
          intro kv hkv
          rcases List.mem_append.mp hkv with hmem | hmem
          · exact h2 kv hmem
          · rcases List.mem_singleton.mp hmem with rfl
            exact h1)
      refine ⟨g1, g2, fun p hp => ?_⟩
      rw [g3 p hp]
      exact readCell_append_lt h _ p (lt_of_lt_of_le hp h1)


lemma readCell_write_self (h : EntityHeap) (p : ℕ) (v : NameCount)
    (hp : p < h.length) : readCell (writeCell h p v) p = v := by
  unfold readCell writeCell
  rw [List.getD_eq_getElem?_getD, List.getElem?_set_self hp]
  rfl

lemma readCell_concat_self (h : EntityHeap) (x : NameCount) :
    readCell (h ++ [x]) h.length = x := by
  unfold readCell
  rw [List.getD_eq_getElem?_getD, List.getElem?_concat_length]
  rfl

/-- Sorting pointers by pointed-to count and then dereferencing is the same
as dereferencing and then sorting the values: the comparator only reads the
`count` fields. -/
lemma map_insertPtrByCountDesc (hs : EntityHeap) (x : ℕ) (ptrs : List ℕ) :
    (insertPtrByCountDesc hs x ptrs).map (readCell hs) =
      insertByCountDesc (readCell hs x) (ptrs.map (readCell hs)) := by
  induction ptrs with
  | nil => rfl
  | cons y ys ih =>
    by_cases hc : (readCell hs y).count ≤ (readCell hs x).count
    · simp [insertPtrByCountDesc, insertByCountDesc, hc]
    · simp [insertPtrByCountDesc, insertByCountDesc, hc, ih]

lemma map_sortPtrsByCountDesc (hs : EntityHeap) (ptrs : List ℕ) :
    (sortPtrsByCountDesc hs ptrs).map (readCell hs) =
      sortByCountDesc (ptrs.map (readCell hs)) := by
  induction ptrs with
  | nil => rfl
  | cons x xs ih =>
    show (insertPtrByCountDesc hs x (sortPtrsByCountDesc hs xs)).map
        (readCell hs) =
      insertByCountDesc (readCell hs x)
        (sortByCountDesc (xs.map (readCell hs)))
    rw [map_insertPtrByCountDesc, ih]

/-- The in-place collision write, viewed through the value map of the
`Map`, is exactly the value-level `updateEntry` on the association list. -/
lemma updateEntry_map_write (hs : EntityHeap) (item : NameCount)
    (lower : String) :
    ∀ (m : List (String × ℕ)) (kv : String × ℕ),
      m.find? (fun e => e.1 = lower) = some kv →
      (m.map Prod.snd).Nodup →
      (∀ e ∈ m, e.2 < hs.length) →
      m.map (fun e => (e.1,
          readCell (writeCell hs kv.2
            (applyCollision item (readCell hs kv.2))) e.2)) =
        updateEntry lower item (m.map fun e => (e.1, readCell hs e.2)) := by
  intro m
  induction m with
  | nil =>
    intro kv hfind
    simp at hfind
  | cons e rest ih =>
    intro kv hfind hnd hval
    rcases List.pairwise_cons.mp hnd with ⟨hehd, hndr⟩
    by_cases hk : e.1 = lower
    · have hkv : e = kv := by
        rw [List.find?_cons_of_pos _ (by simpa using hk)] at hfind
        exact Option.some.inj hfind
      subst hkv
      rw [List.map_cons, List.map_cons, updateEntry, if_pos hk]
      congr 1
      · rw [readCell_write_self hs e.2 _ (hval e (List.mem_cons_self _ _))]
      · apply List.map_congr_left
        intro e' he'
        have hne : e'.2 ≠ e.2 := by
          intro hcontra
          exact hehd e'.2 (List.mem_map_of_mem Prod.snd he') hcontra.symm
        rw [readCell_write_ne hs e.2 _ e'.2 hne]
    · have hfind' : rest.find? (fun e' => e'.1 = lower) = some kv := by
        rwa [List.find?_cons_of_neg _ (by simpa using hk)] at hfind
      have hkvmem : kv ∈ rest := List.mem_of_find?_eq_some hfind'
      rw [List.map_cons, List.map_cons, updateEntry, if_neg hk]
      congr 1
      · have hne : e.2 ≠ kv.2 := by
          intro hcontra
          exact hehd kv.2 (List.mem_map_of_mem Prod.snd hkvmem) hcontra
        rw [readCell_write_ne hs kv.2 _ e.2 hne]
      · exact ih kv hfind' hndr
          (fun e' he' => hval e' (List.mem_cons_of_mem _ he'))

/-- Simulation invariant of the store-passing fold: the `Map` viewed
through the heap equals the value-level `foldEntities` state, `Map`
pointers stay fresh (at least `n`), valid and distinct, and cells below `n`
are untouched. -/
lemma nasHeapFold_sim (ps : List ℕ) :
    ∀ (hs : EntityHeap) (m : List (String × ℕ)) (n : ℕ),
      n ≤ hs.length →
      (∀ p ∈ ps, p < n) →
      (∀ kv ∈ m, n ≤ kv.2 ∧ kv.2 < hs.length) →
      (m.map Prod.snd).Nodup →
      ((ps.foldl nasHeapStep (hs, m)).2).map
          (fun kv => (kv.1, readCell (ps.foldl nasHeapStep (hs, m)).1 kv.2)) =
        foldEntities (ps.map (readCell hs))
          (m.map fun kv => (kv.1, readCell hs kv.2)) ∧
      (∀ kv ∈ (ps.foldl nasHeapStep (hs, m)).2,
        n ≤ kv.2 ∧ kv.2 < (ps.foldl nasHeapStep (hs, m)).1.length) ∧
      (((ps.foldl nasHeapStep (hs, m)).2).map Prod.snd).Nodup ∧
      (∀ p < n, readCell (ps.foldl nasHeapStep (hs, m)).1 p =
        readCell hs p) := by
  induction ps with
  | nil =>
    intro hs m n hn _ hm hnd
    exact ⟨rfl, hm, hnd, fun p _ => rfl⟩
  | cons q qs ih =>
    intro hs m n hn hps hm hnd
    have hq : q < n := hps q (List.mem_cons_self _ _)
    rw [List.foldl_cons]
    cases hfind :
        m.find? (fun kv => kv.1 = jsToLower (readCell hs q).name) with
    | some kv =>
      have hkvmem : kv ∈ m := List.mem_of_find?_eq_some hfind
      have hkvb := hm kv hkvmem
      have hstep : nasHeapStep (hs, m) q =
          (writeCell hs kv.2
            (applyCollision (readCell hs q) (readCell hs kv.2)), m) := by
        rw [nasHeapStep_eq, hfind]
      rw [hstep]
      have hlen : (writeCell hs kv.2
          (applyCollision (readCell hs q) (readCell hs kv.2))).length =
          hs.length := List.length_set hs _ _
      have hframe : ∀ p < n,
          readCell (writeCell hs kv.2
            (applyCollision (readCell hs q) (readCell hs kv.2))) p =
          readCell hs p := fun p hp =>
        readCell_write_ne hs kv.2 _ p
          (Nat.ne_of_lt (lt_of_lt_of_le hp hkvb.1))
      obtain ⟨ih1, ih2, ih3, ih4⟩ := ih
        (writeCell hs kv.2
          (applyCollision (readCell hs q) (readCell hs kv.2))) m n
        (by rw [hlen]; exact hn) (fun p hp => hps p (List.mem_cons_of_mem _ hp))
        (fun kv' hkv' => ⟨(hm kv' hkv').1, by rw [hlen]; exact (hm kv' hkv').2⟩)
        hnd
      have hkey : kv.1 = jsToLower (readCell hs q).name := by
        simpa using List.find?_some hfind
      have hany : ((m.map fun kv' => (kv'.1, readCell hs kv'.2)).any
          fun kv' => kv'.1 = jsToLower (readCell hs q).name) = true := by
        rw [List.any_eq_true]
        exact ⟨(kv.1, readCell hs kv.2), List.mem_map_of_mem _ hkvmem,
          by simpa using hkey⟩
      have hvals : qs.map
          (readCell (writeCell hs kv.2
            (applyCollision (readCell hs q) (readCell hs kv.2)))) =
          qs.map (readCell hs) :=
        List.map_congr_left fun p hp =>
          hframe p (hps p (List.mem_cons_of_mem _ hp))
      have hacc : m.map (fun kv' => (kv'.1,
          readCell (writeCell hs kv.2
            (applyCollision (readCell hs q) (readCell hs kv.2))) kv'.2)) =
          updateEntry (jsToLower (readCell hs q).name) (readCell hs q)
            (m.map fun kv' => (kv'.1, readCell hs kv'.2)) :=
        updateEntry_map_write hs (readCell hs q) _ m kv hfind hnd
          (fun e he => (hm e he).2)
      refine ⟨?_, ih2, ih3, fun p hp => (ih4 p hp).trans (hframe p hp)⟩
      rw [ih1, List.map_cons]
      rw [foldEntities]
      simp only [hany, if_true]
      rw [hvals, hacc]
    | none =>
      have hstep : nasHeapStep (hs, m) q =
          (hs ++ [readCell hs q],
            m ++ [(jsToLower (readCell hs q).name, hs.length)]) := by
        rw [nasHeapStep_eq, hfind]
      rw [hstep]
      have hframe : ∀ p < n,
          readCell (hs ++ [readCell hs q]) p = readCell hs p := fun p hp =>
        readCell_append_lt hs _ p (lt_of_lt_of_le hp hn)
      have hmemsnd : ∀ kv' ∈ m, kv'.2 ≠ hs.length :=
        fun kv' hkv' => Nat.ne_of_lt (hm kv' hkv').2
      obtain ⟨ih1, ih2, ih3, ih4⟩ := ih (hs ++ [readCell hs q])
        (m ++ [(jsToLower (readCell hs q).name, hs.length)]) n
        (le_trans hn (by simp))
        (fun p hp => hps p (List.mem_cons_of_mem _ hp))
        (by
          intro kv' hkv'
          rcases List.mem_append.mp hkv' with hmem | hmem
          · exact ⟨(hm kv' hmem).1,
              lt_of_lt_of_le (hm kv' hmem).2 (by simp)⟩
          · rcases List.mem_singleton.mp hmem with rfl
            exact ⟨hn, by simp⟩)
        (by
          rw [List.map_append]
          apply List.Nodup.append hnd (by simp)
          intro a ha hb
          simp only [List.map_cons, List.map_nil, List.mem_singleton] at hb
          rcases List.mem_map.mp ha with ⟨kv', hkv', rfl⟩
          exact hmemsnd kv' hkv' hb)
      have hany : ((m.map fun kv' => (kv'.1, readCell hs kv'.2)).any
          fun kv' => kv'.1 = jsToLower (readCell hs q).name) = false := by
        rw [List.any_eq_false]
        intro x hx
        rcases List.mem_map.mp hx with ⟨kv', hkv', rfl⟩
        simpa using List.find?_eq_none.mp hfind kv' hkv'
      have hvals : qs.map (readCell (hs ++ [readCell hs q])) =
          qs.map (readCell hs) :=
        List.map_congr_left fun p hp =>
          hframe p (hps p (List.mem_cons_of_mem _ hp))
      have hacc : (m ++ [(jsToLower (readCell hs q).name, hs.length)]).map
          (fun kv' => (kv'.1, readCell (hs ++ [readCell hs q]) kv'.2)) =
          (m.map fun kv' => (kv'.1, readCell hs kv'.2)) ++
            [(jsToLower (readCell hs q).name, readCell hs q)] := by
        rw [List.map_append]
        congr 1
        · exact List.map_congr_left fun kv' hkv' => by
            rw [readCell_append_lt hs _ kv'.2 (hm kv' hkv').2]
        · rw [List.map_cons, List.map_nil, readCell_concat_self]
      refine ⟨?_, ih2, ih3, fun p hp => (ih4 p hp).trans (hframe p hp)⟩
      rw [ih1, List.map_cons]
      rw [foldEntities]
      simp only [hany, Bool.false_eq_true, if_false]
      rw [hvals, hacc]

/-- The store-passing model computes the value-level `normalizeAndSlice`:
dereferencing the result pointers in the final heap yields exactly
`normalizeAndSlice` of the dereferenced inputs. -/
lemma normalizeAndSliceHeap_refines (h : EntityHeap) (ps : List ℕ)
    (limit : ℕ) (hps : ∀ p ∈ ps, p < h.length) :
    ((normalizeAndSliceHeap h ps limit).2).map
        (readCell (normalizeAndSliceHeap h ps limit).1) =
      normalizeAndSlice (ps.map (readCell h)) limit := by
  obtain ⟨s1, _, _, _⟩ := nasHeapFold_sim ps h [] h.length (le_refl _) hps
    (by intro kv hkv; cases hkv) (by simp)
  show ((sortPtrsByCountDesc (ps.foldl nasHeapStep (h, [])).1
      ((ps.foldl nasHeapStep (h, [])).2.map Prod.snd)).take limit).map
      (readCell (ps.foldl nasHeapStep (h, [])).1) =
    normalizeAndSlice (ps.map (readCell h)) limit
  rw [List.map_take, map_sortPtrsByCountDesc]
  have hmm : ((ps.foldl nasHeapStep (h, [])).2.map Prod.snd).map
      (readCell (ps.foldl nasHeapStep (h, [])).1) =
      ((ps.foldl nasHeapStep (h, [])).2.map
        (fun kv =>
          (kv.1, readCell (ps.foldl nasHeapStep (h, [])).1 kv.2))).map
        Prod.snd := by
    rw [List.map_map, List.map_map]
    rfl
  rw [hmm, s1]
  rfl

/-- C9: no component mutates its input after production: running the
canonicalizer leaves every pre-existing heap object — in particular every
element of the input array — unchanged (all writes hit the fresh
`{ ...item }` copies); the quantile estimator contains no writes at all;
and (model validation) the store-passing canonicalizer still computes the
value-level `normalizeAndSlice` of the dereferenced inputs. -/
theorem no_input_mutation :
    (∀ (h : EntityHeap) (items : List ℕ) (limit : ℕ) (p : ℕ),
        p < h.length →
        readCell (normalizeAndSliceHeap h items limit).1 p =
          readCell h p) ∧
    (∀ (dh : List Distribution) (ps : List ℕ),
        (calculateQuantilesHeap dh ps).1 = dh) ∧
    (∀ (h : EntityHeap) (items : List ℕ) (limit : ℕ),
        (∀ p ∈ items, p < h.length) →
        ((normalizeAndSliceHeap h items limit).2).map
            (readCell (normalizeAndSliceHeap h items limit).1) =
          normalizeAndSlice (items.map (readCell h)) limit) := by
  refine ⟨?_, fun dh ps => rfl, ?_⟩
  · intro h items limit p hp
    show readCell (items.foldl nasHeapStep (h, [])).1 p = readCell h p
    have := nasHeapFold_frame items (h, []) h.length (le_refl _)
      (by intro kv hkv; cases hkv)
    exact this.2.2 p hp
  · intro h items limit hmem
    exact normalizeAndSliceHeap_refines h items limit hmem

/-- Concrete heap for the mutation-freedom witness. -/
def openaiHeap : EntityHeap := [⟨"OpenAI", 3⟩, ⟨"openai", 2⟩]

theorem no_input_mutation_witness :
    readCell (normalizeAndSliceHeap openaiHeap [0, 1] 5).1 0 =
      readCell openaiHeap 0 :=
  no_input_mutation.1 openaiHeap [0, 1] 5 0 (by norm_num [openaiHeap])
